import Mathlib

/-!
# A verification model of `RingBuf` (danburkert/rust-ringbuf, `src/ringbuf.rs`)

The Rust source implements a growable double-ended queue over one contiguous
block addressed circularly: fields `lo` (physical slot of logical index 0),
`len` (live element count), `cap` (slot count), and a raw pointer to the
block.  We embed the nonzero-size-element instantiation shallowly: the block
becomes a `List Int` of length `cap` (uninitialized slots are modelled as
`0`), raw-pointer writes become `List.set`, `ptr::copy_memory` (memmove)
becomes a positional copy over the current block contents, and `uint`
becomes `Nat` (the deque's size arithmetic never exceeds the word size on
the inputs considered; subtractions are guarded exactly as in the source).

Construction for possibly zero-size element types (which the source special
cases: no allocation, `cap = uint::MAX`) is modelled separately by
`RawRingBuf`/`withCapacityRaw`, which records whether a block is allocated.
-/

/-- `static INITIAL_CAPACITY: uint = 8u;` -/
def INITIAL_CAPACITY : Nat := 8

/-- `static MINIMUM_CAPACITY: uint = 2u;` -/
def MINIMUM_CAPACITY : Nat := 2

/-- `uint::MAX` for the 64-bit `uint` of the source. -/
def uintMax : Nat := 2 ^ 64 - 1

/-- The `RingBuf<T>` struct at `T = int`, with the backing block made
explicit as a list of `cap` slots (`data.length = cap` for every state the
source can construct). -/
structure RingBuf where
  lo : Nat
  len : Nat
  cap : Nat
  data : List Int
  deriving Repr, DecidableEq

namespace RingBuf

/-- Representation invariant, as documented on the struct fields:
`0 <= lo < cap`, `0 <= len <= cap`, and the block really has `cap` slots. -/
def WF (r : RingBuf) : Prop :=
  r.data.length = r.cap ∧ r.len ≤ r.cap ∧ r.lo < r.cap

instance : DecidablePred WF := fun r => by unfold WF; infer_instance

/-- `fn get_offset(&self, index: uint) -> uint`: the branch order
(subtraction before addition) is kept exactly as in the source. -/
def getOffset (r : RingBuf) (index : Nat) : Nat :=
  if r.lo ≥ r.cap - index then
    index - (r.cap - r.lo)
  else
    r.lo + index

/-- `fn get_back_offset(&self) -> uint`. -/
def getBackOffset (r : RingBuf) : Nat :=
  r.getOffset r.len

/-- `fn get_front_offset(&self) -> uint`. -/
def getFrontOffset (r : RingBuf) : Nat :=
  if r.lo = 0 then r.cap - 1 else r.lo - 1

/-- `fn as_slices(&self) -> (&[T], &[T])`: slice values read from the
current block.  `slice1` starts at physical `lo`; `slice2` at physical 0. -/
def asSlices (r : RingBuf) : List Int × List Int :=
  if r.lo > r.cap - r.len then
    let len1 := r.cap - r.lo
    ((r.data.drop r.lo).take len1, (r.data.drop 0).take (r.len - len1))
  else
    ((r.data.drop r.lo).take r.len, (r.data.drop 0).take 0)

/-- `iter()` linearized: the chain of `slice1` then `slice2`
(the logical sequence, front to back). -/
def toList (r : RingBuf) : List Int :=
  (asSlices r).1 ++ (asSlices r).2

/-- `fn with_capacity(capacity: uint)`, nonzero element size branch.  The
source recurses when `capacity < MINIMUM_CAPACITY`; that recursive call
immediately takes the last branch (`MINIMUM_CAPACITY` is not below itself),
so it is unfolded once here.  The freshly allocated, uninitialized block is
modelled as zero slots. -/
def withCapacity (capacity : Nat) : RingBuf :=
  if capacity < MINIMUM_CAPACITY then
    ⟨0, 0, MINIMUM_CAPACITY, List.replicate MINIMUM_CAPACITY 0⟩
  else
    ⟨0, 0, capacity, List.replicate capacity 0⟩

/-- `fn new() -> RingBuf<T>`. -/
def new : RingBuf :=
  withCapacity INITIAL_CAPACITY

/-- `fn from_vec(mut vec: Vec<T>)`: a `Vec` is its element list `l` plus its
capacity `c` (with `l.length ≤ c`); the ring buffer adopts the block as is:
`lo = 0`, `len = l.length`, `cap = c`. -/
def fromVec (l : List Int) (c : Nat) : RingBuf :=
  ⟨0, l.length, c, l ++ List.replicate (c - l.length) 0⟩

/-- `fn get(&self, index)` (the source asserts `index < len` and then reads
the computed offset; theorems only apply it under that precondition). -/
def get (r : RingBuf) (index : Nat) : Int :=
  r.data.getD (r.getOffset index) 0

/-- `fn swap(&mut self, i, j)` (source asserts `i < len` and `j < len`). -/
def swap (r : RingBuf) (i j : Nat) : RingBuf :=
  let oi := r.getOffset i
  let oj := r.getOffset j
  { r with data := (r.data.set oi (r.data.getD oj 0)).set oj (r.data.getD oi 0) }

/-- `fn truncate(&mut self, len)`: pops (drops) from the back while the
current length exceeds the target; the block contents are not modified. -/
def truncate (r : RingBuf) (l : Nat) : RingBuf :=
  { r with len := min r.len l }

/-- `fn clear(&mut self)`. -/
def clear (r : RingBuf) : RingBuf :=
  r.truncate 0

/-- `fn resize(&mut self, capacity: uint)`, nonzero element size: no-op when
`capacity == cap`, otherwise copy `slice1` then `slice2` contiguously into a
fresh uninitialized block of `capacity` slots and set `lo = 0`.  (The
`debug_assert!(capacity >= self.len)` is compiled out in release builds and
its violation is unreachable from the public surface.) -/
def resize (r : RingBuf) (capacity : Nat) : RingBuf :=
  if capacity = r.cap then r
  else
    let s := asSlices r
    ⟨0, r.len, capacity,
      s.1 ++ s.2 ++ List.replicate (capacity - (s.1.length + s.2.length)) 0⟩

/-- `fn push_back(&mut self, value: T)`, nonzero element size: grow to
`len * 2` when full, then write at the back offset and increment `len`. -/
def pushBack (r : RingBuf) (value : Int) : RingBuf :=
  let r := if r.len = r.cap then r.resize (r.len * 2) else r
  { r with data := r.data.set r.getBackOffset value, len := r.len + 1 }

/-- `fn push_front(&mut self, value: T)`, nonzero element size: grow to
`len * 2` when full, write at the front offset, increment `len`, move `lo`. -/
def pushFront (r : RingBuf) (value : Int) : RingBuf :=
  let r := if r.len = r.cap then r.resize (r.len * 2) else r
  let offset := r.getFrontOffset
  { r with data := r.data.set offset value, len := r.len + 1, lo := offset }

/-- `fn pop_back(&mut self) -> Option<T>`: result value plus new state. -/
def popBack (r : RingBuf) : Option Int × RingBuf :=
  if r.len = 0 then (none, r)
  else (some (r.data.getD (r.getOffset (r.len - 1)) 0), { r with len := r.len - 1 })

/-- `fn pop_front(&mut self) -> Option<T>`: result value plus new state. -/
def popFront (r : RingBuf) : Option Int × RingBuf :=
  if r.len = 0 then (none, r)
  else (some (r.data.getD (r.getOffset 0) 0),
        { r with lo := r.getOffset 1, len := r.len - 1 })

/-- `fn front(&self) -> Option<&T>`. -/
def front (r : RingBuf) : Option Int :=
  if r.len > 0 then some (r.get 0) else none

/-- `fn back(&self) -> Option<&T>`. -/
def back (r : RingBuf) : Option Int :=
  if r.len > 0 then some (r.get (r.len - 1)) else none

/-- `num::next_power_of_two(n)` on 64-bit `uint`: the source smears the bits
of `n - 1` downward and adds one, all with wrapping arithmetic.  For `n = 0`
the `n - 1` wraps to all-ones and the final `+ 1` wraps back to 0; for every
`n > 2^63` the smear of `n - 1` is likewise all-ones and the result wraps to
0; otherwise the result is the least power of two `≥ n`, modelled here by
doubling from 1 (`n` rounds of doubling always suffice). -/
def npotLoop (target : Nat) : Nat → Nat → Nat
  | p, 0 => p
  | p, fuel + 1 => if target ≤ p then p else npotLoop target (2 * p) fuel

/-- See `npotLoop`. -/
def nextPowerOfTwo (n : Nat) : Nat :=
  if n = 0 then 0
  else if 2 ^ 63 < n then 0
  else npotLoop n 1 n

/-- `fn reserve_exact(&mut self, capacity: uint)`. -/
def reserveExact (r : RingBuf) (capacity : Nat) : RingBuf :=
  if capacity > r.cap then r.resize capacity else r

/-- `fn reserve(&mut self, capacity: uint)`. -/
def reserve (r : RingBuf) (capacity : Nat) : RingBuf :=
  r.reserveExact (nextPowerOfTwo capacity)

/-- `fn reserve_additional(&mut self, extra: uint)`. -/
def reserveAdditional (r : RingBuf) (extra : Nat) : RingBuf :=
  if r.cap - r.len < extra then r.reserve (r.len + extra) else r

/-- `fn shrink_to_fit(&mut self)`. -/
def shrinkToFit (r : RingBuf) : RingBuf :=
  r.resize r.len

/-- `ptr::copy_memory(ptr + dst, ptr + src, n)` (memmove semantics): the
result block holds, at `[dst, dst+n)`, the values the block held at
`[src, src+n)` when the call was made; all other slots are unchanged. -/
def writeRange (data : List Int) (dst : Nat) (src : List Int) : List Int :=
  (List.range data.length).map fun i =>
    if dst ≤ i ∧ i < dst + src.length then src.getD (i - dst) 0 else data.getD i 0

/-- See `writeRange`. -/
def copyMem (data : List Int) (dst src n : Nat) : List Int :=
  writeRange data dst ((List.range n).map fun i => data.getD (src + i) 0)

/-- `fn reset(&mut self)`, translated with the source's exact statement
structure: after the early `lo == 0` return, the body is THREE successive
statements — `if len1 == 0 { }` (no `else` follows it), then an independent
`if len2 == 0 { ... }` (again no `else`), then an independent
`if ... { } else if ... { } else { }` chain.  The slices are pointers into
the live block (`slice1` at physical `lo`, `slice2` at physical 0, lengths
frozen at entry), so later copies read whatever the block holds at copy
time. -/
def reset (r : RingBuf) : RingBuf :=
  if r.lo = 0 then r
  else
    let s := asSlices r
    let len1 := s.1.length
    let len2 := s.2.length
    -- statement: `if len1 == 0 { /* Nothing to do */ }`
    -- statement: `if len2 == 0 { copy_memory(ptr, ptr + lo, len) }`
    let d1 := if len2 = 0 then copyMem r.data 0 r.lo r.len else r.data
    -- statement: the `if / else if / else` chain
    let d2 :=
      if len1 ≤ (r.cap - len1) - len2 then
        -- copy_memory(ptr + len1, slice2.as_ptr(), len2);
        -- copy_memory(ptr, slice1.as_ptr(), len1)
        copyMem (copyMem d1 len1 0 len2) 0 r.lo len1
      else if len1 < len2 then
        -- tmp := slice1 (len1 values, read from ptr + lo);
        -- copy_memory(ptr + len1, slice2.as_ptr(), len2);
        -- copy_nonoverlapping_memory(ptr, tmp, len1)
        let tmp := (List.range len1).map fun i => d1.getD (r.lo + i) 0
        writeRange (copyMem d1 len1 0 len2) 0 tmp
      else
        -- tmp := slice2 (len2 values, read from ptr);
        -- copy_memory(ptr, slice1.as_ptr(), len1);
        -- copy_nonoverlapping_memory(ptr + len1, tmp, len2)
        let tmp := (List.range len2).map fun i => d1.getD (0 + i) 0
        writeRange (copyMem d1 0 r.lo len1) len1 tmp
    { r with data := d2, lo := 0 }

/-- `fn into_vec(mut self) -> Vec<T>`: `reset()`, then the block becomes a
`Vec` of the first `len` slots (`Vec::from_raw_parts(len, cap, ptr)`). -/
def intoVec (r : RingBuf) : List Int :=
  ((reset r).data).take r.len

/-- `impl PartialOrd::lt`, inner loop: `iter().zip(other.iter())` compares
aligned pairs only. -/
def pairwiseAllLt : List Int → List Int → Bool
  | x :: xs, y :: ys => decide (x < y) && pairwiseAllLt xs ys
  | _, _ => true

/-- `fn lt(&self, other: &RingBuf<T>) -> bool`. -/
def ltRB (a b : RingBuf) : Bool :=
  pairwiseAllLt (toList a) (toList b) && decide (a.len < b.len)

/-- `impl Ord::cmp`, inner loop: walk the zipped iterators, return the first
non-equal comparison, and fall through to `fin` (the length comparison) when
either side runs out. -/
def zipCmp : List Int → List Int → Ordering → Ordering
  | x :: xs, y :: ys, fin => if compare x y = .eq then zipCmp xs ys fin else compare x y
  | _, _, fin => fin

/-- `fn cmp(&self, other: &RingBuf<T>) -> Ordering`. -/
def cmpRB (a b : RingBuf) : Ordering :=
  zipCmp (toList a) (toList b) (compare a.len b.len)

end RingBuf

/-- Modelled from the spec: lexicographic ordering over logical order, with
the shorter sequence less when the shared prefix is equal ("Ordering:
lexicographic pairwise comparison over logical order; on equal shared
prefix, shorter is less").  Used as the specification side of the ordering
claims. -/
def lexCmp : List Int → List Int → Ordering
  | [], [] => .eq
  | [], _ :: _ => .lt
  | _ :: _, [] => .gt
  | x :: xs, y :: ys => if compare x y = .eq then lexCmp xs ys else compare x y

/-- Construction result for the full `with_capacity`, including the
zero-size-element branch: only the header fields plus whether a block was
allocated are observable. -/
structure RawRingBuf where
  lo : Nat
  len : Nat
  cap : Nat
  allocated : Bool
  deriving Repr, DecidableEq

/-- `fn with_capacity(capacity: uint)` with the element size `sz` explicit:
`sz == 0` skips allocation and reports `cap = uint::MAX`; otherwise the
minimum-capacity recursion unfolds once as in `RingBuf.withCapacity`. -/
def withCapacityRaw (sz capacity : Nat) : RawRingBuf :=
  if sz = 0 then ⟨0, 0, uintMax, false⟩
  else if capacity < MINIMUM_CAPACITY then ⟨0, 0, MINIMUM_CAPACITY, true⟩
  else ⟨0, 0, capacity, true⟩

/-- `fn new()` with the element size explicit. -/
def newRaw (sz : Nat) : RawRingBuf :=
  withCapacityRaw sz INITIAL_CAPACITY

namespace RingBuf

/-- Reduce `x % c` to a subtraction when `x < 2 * c`: every modulus taken by
the index arithmetic is of this shape. -/
theorem mod_cases (x c : Nat) (h : x < 2 * c) : x % c = if x < c then x else x - c := by
  split
  · exact Nat.mod_eq_of_lt (by assumption)
  · rw [Nat.mod_eq_sub_mod (by omega)]
    exact Nat.mod_eq_of_lt (by omega)

/-- Writing one slot leaves every other slot unchanged. -/
theorem getD_set_of_ne : ∀ (l : List Int) (i j : Nat) (v : Int), i ≠ j →
    (l.set i v).getD j 0 = l.getD j 0
  | [], _, _, _, _ => rfl
  | _ :: _, 0, 0, _, h => absurd rfl h
  | _ :: _, 0, _ + 1, _, _ => by simp [List.set]
  | _ :: _, _ + 1, 0, _, _ => by simp [List.set]
  | _ :: t, i + 1, j + 1, v, h => by
    simp only [List.set, List.getD_cons_succ]
    exact getD_set_of_ne t i j v (by omega)

/-- Writing an in-bounds slot stores the value there. -/
theorem getD_set_self : ∀ (l : List Int) (i : Nat) (v : Int), i < l.length →
    (l.set i v).getD i 0 = v
  | [], _, _, h => absurd h (by simp)
  | _ :: _, 0, _, _ => by simp [List.set]
  | _ :: t, i + 1, v, h => by
    simp only [List.set, List.getD_cons_succ]
    exact getD_set_self t i v (by simpa using h)

/-- An in-bounds contiguous view of the block, as a map over its indices. -/
theorem drop_take_eq_map_range : ∀ (n s : Nat) (data : List Int), s + n ≤ data.length →
    (data.drop s).take n = (List.range n).map fun i => data.getD (s + i) 0
  | 0, _, _, _ => by simp
  | n + 1, s, data, h => by
    have hs : s < data.length := by omega
    rw [List.drop_eq_getElem_cons hs, List.take_succ_cons,
      drop_take_eq_map_range n (s + 1) data (by omega), List.range_succ_eq_map, List.map_cons,
      List.map_map]
    refine congrArg₂ _ ?_ (List.map_congr_left fun a _ => ?_)
    · simp only [Nat.add_zero]
      exact (List.getD_eq_getElem data 0 hs).symm
    · simp only [Function.comp_apply, Nat.succ_eq_add_one]
      rw [Nat.add_comm a 1, ← Nat.add_assoc]

/-- Special case of `drop_take_eq_map_range` at `s = 0`. -/
theorem take_eq_map_range (n : Nat) (data : List Int) (h : n ≤ data.length) :
    data.take n = (List.range n).map fun i => data.getD i 0 := by
  have := drop_take_eq_map_range n 0 data (by omega)
  simpa using this

/-- The offset computation lands on `(lo + index) % cap` whenever
`lo < cap` and `index ≤ cap`. -/
theorem getOffset_mod (r : RingBuf) (index : Nat) (h1 : r.lo < r.cap) (h2 : index ≤ r.cap) :
    r.getOffset index = (r.lo + index) % r.cap := by
  rw [mod_cases _ _ (by omega)]
  unfold getOffset
  split <;> split <;> omega

/-- The linearization reads logical slot `i` at physical `(lo + i) % cap`. -/
theorem toList_eq (r : RingBuf) (h : WF r) :
    toList r = (List.range r.len).map fun i => r.data.getD ((r.lo + i) % r.cap) 0 := by
  obtain ⟨hlen, hle, hlo⟩ := h
  unfold toList asSlices
  split
  · rename_i hw
    dsimp only
    have h1 : r.len = (r.cap - r.lo) + (r.len - (r.cap - r.lo)) := by omega
    rw [List.drop_zero, drop_take_eq_map_range _ _ _ (by omega),
      take_eq_map_range _ _ (by omega)]
    conv_rhs => rw [h1, List.range_add, List.map_append, List.map_map]
    refine congrArg₂ _ (List.map_congr_left fun a ha => ?_)
      (List.map_congr_left fun a ha => ?_)
    · rw [List.mem_range] at ha
      rw [mod_cases _ _ (by omega), if_pos (by omega)]
    · rw [List.mem_range] at ha
      simp only [Function.comp_apply]
      rw [mod_cases _ _ (by omega), if_neg (by omega)]
      congr 1
      omega
  · rename_i hw
    dsimp only
    rw [List.take_zero, List.append_nil, drop_take_eq_map_range _ _ _ (by omega)]
    refine List.map_congr_left fun a ha => ?_
    rw [List.mem_range] at ha
    rw [mod_cases _ _ (by omega), if_pos (by omega)]

/-- The linearization has exactly `len` elements. -/
theorem toList_length (r : RingBuf) (h : WF r) : (toList r).length = r.len := by
  rw [toList_eq r h]
  simp

/-- `resize` to a genuinely different capacity lays the linearization out
from physical 0 in a fresh block. -/
theorem resize_spec (r : RingBuf) (c : Nat) (h : WF r) (hne : c ≠ r.cap) :
    r.resize c = ⟨0, r.len, c, toList r ++ List.replicate (c - r.len) 0⟩ := by
  have hl : (asSlices r).1.length + (asSlices r).2.length = r.len := by
    have h2 := toList_length r h
    unfold toList at h2
    simpa using h2
  unfold resize
  rw [if_neg hne]
  simp only [toList, List.append_assoc, hl]

/-- A freshly laid-out linear state linearizes to its element list. -/
theorem toList_linear (len c : Nat) (l : List Int) (hl : l.length = len) (_hc : len ≤ c) :
    toList ⟨0, len, c, l ++ List.replicate (c - len) 0⟩ = l := by
  unfold toList asSlices
  dsimp only
  rw [if_neg (by omega)]
  dsimp only
  rw [List.drop_zero, List.take_zero, List.append_nil, List.take_left' hl]

/-- `resize` preserves the invariants when the target holds the elements. -/
theorem resize_wf (r : RingBuf) (c : Nat) (h : WF r) (hc : r.len ≤ c) (hpos : 0 < c) :
    WF (r.resize c) := by
  by_cases hne : c = r.cap
  · unfold resize
    rw [if_pos hne]
    exact h
  · rw [resize_spec r c h hne]
    refine ⟨?_, hc, hpos⟩
    simp only [List.length_append, List.length_replicate, toList_length r h]
    omega

/-- `resize` preserves the logical sequence. -/
theorem resize_toList (r : RingBuf) (c : Nat) (h : WF r) (hc : r.len ≤ c) :
    toList (r.resize c) = toList r := by
  by_cases hne : c = r.cap
  · unfold resize
    rw [if_pos hne]
  · rw [resize_spec r c h hne]
    exact toList_linear r.len c (toList r) (toList_length r h) hc

/-- Writing the incoming value at the back offset and bumping `len` appends
it to the logical sequence (the write step of `push_back`, after growth). -/
theorem write_back (r : RingBuf) (v : Int) (h : WF r) (hlt : r.len < r.cap) :
    WF ⟨r.lo, r.len + 1, r.cap, r.data.set r.getBackOffset v⟩ ∧
      toList ⟨r.lo, r.len + 1, r.cap, r.data.set r.getBackOffset v⟩ = toList r ++ [v] := by
  obtain ⟨hlen, hle, hlo⟩ := h
  have hoff : r.getBackOffset = (r.lo + r.len) % r.cap := getOffset_mod r r.len hlo hle
  have hofflt : (r.lo + r.len) % r.cap < r.cap := Nat.mod_lt _ (by omega)
  have hwf2 : WF ⟨r.lo, r.len + 1, r.cap, r.data.set r.getBackOffset v⟩ :=
    ⟨by simp [hlen], by dsimp only; omega, hlo⟩
  refine ⟨hwf2, ?_⟩
  rw [toList_eq _ hwf2]
  dsimp only
  rw [List.range_succ, List.map_append, toList_eq r ⟨hlen, hle, hlo⟩]
  refine congrArg₂ _ (List.map_congr_left fun i hi => ?_) ?_
  · rw [List.mem_range] at hi
    rw [hoff]
    apply getD_set_of_ne
    rw [mod_cases _ _ (by omega), mod_cases _ _ (by omega)]
    split_ifs <;> omega
  · simp only [List.map_cons, List.map_nil]
    rw [hoff, getD_set_self _ _ _ (by rw [hlen]; exact hofflt)]

/-- Writing the incoming value at the front offset, bumping `len`, and
moving `lo` there prepends it to the logical sequence (the write step of
`push_front`, after growth). -/
theorem write_front (r : RingBuf) (v : Int) (h : WF r) (hlt : r.len < r.cap) :
    WF ⟨r.getFrontOffset, r.len + 1, r.cap, r.data.set r.getFrontOffset v⟩ ∧
      toList ⟨r.getFrontOffset, r.len + 1, r.cap, r.data.set r.getFrontOffset v⟩ =
        v :: toList r := by
  obtain ⟨hlen, hle, hlo⟩ := h
  have hoffdef : r.getFrontOffset = if r.lo = 0 then r.cap - 1 else r.lo - 1 := rfl
  have hofflt : r.getFrontOffset < r.cap := by
    rw [hoffdef]
    split <;> omega
  have hwf2 : WF ⟨r.getFrontOffset, r.len + 1, r.cap, r.data.set r.getFrontOffset v⟩ :=
    ⟨by simp [hlen], by dsimp only; omega, hofflt⟩
  refine ⟨hwf2, ?_⟩
  rw [toList_eq _ hwf2]
  dsimp only
  rw [List.range_succ_eq_map, List.map_cons, List.map_map, toList_eq r ⟨hlen, hle, hlo⟩]
  refine congrArg₂ _ ?_ (List.map_congr_left fun i hi => ?_)
  · rw [Nat.add_zero, Nat.mod_eq_of_lt hofflt,
      getD_set_self _ _ _ (by rw [hlen]; exact hofflt)]
  · rw [List.mem_range] at hi
    simp only [Function.comp_apply, Nat.succ_eq_add_one]
    have he : (r.getFrontOffset + (i + 1)) % r.cap = (r.lo + i) % r.cap := by
      rw [mod_cases _ _ (by omega), mod_cases _ _ (by omega), hoffdef]
      split_ifs <;> omega
    rw [he]
    apply getD_set_of_ne
    rw [mod_cases _ _ (by omega), hoffdef]
    split_ifs <;> omega

/-- `push_back` preserves the invariants and appends to the sequence. -/
theorem pushBack_toList (r : RingBuf) (v : Int) (h : WF r) :
    WF (r.pushBack v) ∧ toList (r.pushBack v) = toList r ++ [v] := by
  by_cases hfull : r.len = r.cap
  · have hcap : 0 < r.cap := lt_of_le_of_lt (Nat.zero_le _) h.2.2
    have hne : r.len * 2 ≠ r.cap := by omega
    have hw2 : WF (r.resize (r.len * 2)) := resize_wf r _ h (by omega) (by omega)
    have ht2 : toList (r.resize (r.len * 2)) = toList r := resize_toList r _ h (by omega)
    have hlt2 : (r.resize (r.len * 2)).len < (r.resize (r.len * 2)).cap := by
      rw [resize_spec r _ h hne]
      dsimp only
      omega
    have hstep := write_back (r.resize (r.len * 2)) v hw2 hlt2
    have hpb : r.pushBack v =
        ⟨(r.resize (r.len * 2)).lo, (r.resize (r.len * 2)).len + 1, (r.resize (r.len * 2)).cap,
          (r.resize (r.len * 2)).data.set (r.resize (r.len * 2)).getBackOffset v⟩ := by
      simp only [pushBack, if_pos hfull]
    rw [hpb]
    exact ⟨hstep.1, by rw [hstep.2, ht2]⟩
  · have hlt : r.len < r.cap := lt_of_le_of_ne h.2.1 hfull
    have hstep := write_back r v h hlt
    have hpb : r.pushBack v = ⟨r.lo, r.len + 1, r.cap, r.data.set r.getBackOffset v⟩ := by
      simp only [pushBack, if_neg hfull]
    rw [hpb]
    exact hstep

/-- `push_front` preserves the invariants and prepends to the sequence. -/
theorem pushFront_toList (r : RingBuf) (v : Int) (h : WF r) :
    WF (r.pushFront v) ∧ toList (r.pushFront v) = v :: toList r := by
  by_cases hfull : r.len = r.cap
  · have hcap : 0 < r.cap := lt_of_le_of_lt (Nat.zero_le _) h.2.2
    have hne : r.len * 2 ≠ r.cap := by omega
    have hw2 : WF (r.resize (r.len * 2)) := resize_wf r _ h (by omega) (by omega)
    have ht2 : toList (r.resize (r.len * 2)) = toList r := resize_toList r _ h (by omega)
    have hlt2 : (r.resize (r.len * 2)).len < (r.resize (r.len * 2)).cap := by
      rw [resize_spec r _ h hne]
      dsimp only
      omega
    have hstep := write_front (r.resize (r.len * 2)) v hw2 hlt2
    have hpf : r.pushFront v =
        ⟨(r.resize (r.len * 2)).getFrontOffset, (r.resize (r.len * 2)).len + 1,
          (r.resize (r.len * 2)).cap,
          (r.resize (r.len * 2)).data.set (r.resize (r.len * 2)).getFrontOffset v⟩ := by
      simp only [pushFront, if_pos hfull]
    rw [hpf]
    exact ⟨hstep.1, by rw [hstep.2, ht2]⟩
  · have hlt : r.len < r.cap := lt_of_le_of_ne h.2.1 hfull
    have hstep := write_front r v h hlt
    have hpf : r.pushFront v =
        ⟨r.getFrontOffset, r.len + 1, r.cap, r.data.set r.getFrontOffset v⟩ := by
      simp only [pushFront, if_neg hfull]
    rw [hpf]
    exact hstep

end RingBuf

namespace RingBuf

/-- The doubling loop behind `next_power_of_two` only ever holds powers of
two. -/
theorem npotLoop_pow (target : Nat) : ∀ (fuel p : Nat), (∃ k, p = 2 ^ k) →
    ∃ k, npotLoop target p fuel = 2 ^ k
  | 0, _, h => h
  | fuel + 1, p, h => by
    unfold npotLoop
    split
    · exact h
    · obtain ⟨k, rfl⟩ := h
      exact npotLoop_pow target fuel (2 * 2 ^ k) ⟨k + 1, by ring⟩

/-- With enough fuel the doubling loop reaches the target. -/
theorem npotLoop_ge (target : Nat) : ∀ (fuel p : Nat), target ≤ p * 2 ^ fuel →
    target ≤ npotLoop target p fuel
  | 0, p, h => by simpa using h
  | fuel + 1, p, h => by
    unfold npotLoop
    split
    · assumption
    · refine npotLoop_ge target fuel (2 * p) ?_
      calc target ≤ p * 2 ^ (fuel + 1) := h
        _ = 2 * p * 2 ^ fuel := by ring

/-- `next_power_of_two(n) ≥ n` on the non-wrapping range. -/
theorem nextPowerOfTwo_ge (n : Nat) (h : n ≤ 2 ^ 63) : n ≤ nextPowerOfTwo n := by
  unfold nextPowerOfTwo
  split
  · omega
  · rw [if_neg (by omega)]
    refine npotLoop_ge n n 1 ?_
    have := Nat.lt_two_pow n
    omega

/-- `next_power_of_two(n)` either wrapped to 0 or is a power of two. -/
theorem nextPowerOfTwo_pow_or_zero (n : Nat) :
    nextPowerOfTwo n = 0 ∨ ∃ k, nextPowerOfTwo n = 2 ^ k := by
  unfold nextPowerOfTwo
  split
  · exact Or.inl rfl
  · split
    · exact Or.inl rfl
    · exact Or.inr (npotLoop_pow n n 1 ⟨0, rfl⟩)

/-- Above `2^63` the wrapping `next_power_of_two` returns 0. -/
theorem nextPowerOfTwo_wrap (n : Nat) (h : 2 ^ 63 < n) : nextPowerOfTwo n = 0 := by
  unfold nextPowerOfTwo
  rw [if_neg (by omega), if_pos h]

/-- `compare` on `Nat` is invariant under shifting both sides by one. -/
theorem nat_compare_succ (n m : Nat) : compare (n + 1) (m + 1) = compare n m := by
  rcases Nat.lt_trichotomy n m with h | h | h
  · rw [Nat.compare_eq_lt.mpr h, Nat.compare_eq_lt.mpr (by omega)]
  · subst h
    rw [Nat.compare_eq_eq.mpr rfl, Nat.compare_eq_eq.mpr rfl]
  · rw [Nat.compare_eq_gt.mpr h, Nat.compare_eq_gt.mpr (by omega)]

end RingBuf

/-- The `cmp` loop, seeded with the comparison of the true lengths, is the
lexicographic comparison. -/
theorem zipCmp_eq_lexCmp : ∀ l1 l2 : List Int,
    RingBuf.zipCmp l1 l2 (compare l1.length l2.length) = lexCmp l1 l2
  | [], [] => by decide
  | [], _ :: ys => by
    unfold RingBuf.zipCmp lexCmp
    exact Nat.compare_eq_lt.mpr (by simp)
  | _ :: xs, [] => by
    unfold RingBuf.zipCmp lexCmp
    exact Nat.compare_eq_gt.mpr (by simp)
  | x :: xs, y :: ys => by
    unfold RingBuf.zipCmp lexCmp
    simp only [List.length_cons, RingBuf.nat_compare_succ]
    split
    · exact zipCmp_eq_lexCmp xs ys
    · rfl

namespace RingBuf

/-- Bulk `push_back` appends the pushed values in order. -/
theorem foldl_pushBack (vs : List Int) : ∀ r : RingBuf, WF r →
    WF (vs.foldl pushBack r) ∧ toList (vs.foldl pushBack r) = toList r ++ vs := by
  induction vs with
  | nil => exact fun r h => ⟨h, by simp⟩
  | cons v vs ih =>
    intro r h
    obtain ⟨hw, ht⟩ := pushBack_toList r v h
    obtain ⟨hw2, ht2⟩ := ih (r.pushBack v) hw
    refine ⟨by rwa [List.foldl_cons], ?_⟩
    rw [List.foldl_cons, ht2, ht, List.append_assoc, List.singleton_append]

/-- Bulk `push_front` prepends the pushed values in reverse order. -/
theorem foldl_pushFront (vs : List Int) : ∀ r : RingBuf, WF r →
    WF (vs.foldl pushFront r) ∧ toList (vs.foldl pushFront r) = vs.reverse ++ toList r := by
  induction vs with
  | nil => exact fun r h => ⟨h, by simp⟩
  | cons v vs ih =>
    intro r h
    obtain ⟨hw, ht⟩ := pushFront_toList r v h
    obtain ⟨hw2, ht2⟩ := ih (r.pushFront v) hw
    refine ⟨by rwa [List.foldl_cons], ?_⟩
    rw [List.foldl_cons, ht2, ht, List.reverse_cons, List.append_assoc, List.singleton_append]

end RingBuf

-- Concrete sanity checks of the model against the source's own tests.
example : RingBuf.toList (RingBuf.pushBack (RingBuf.pushBack RingBuf.new 1) 2) = [1, 2] := by
  decide

example :
    RingBuf.toList
      (RingBuf.pushFront
        (RingBuf.pushFront
          (RingBuf.pushBack
            (RingBuf.pushFront
              (RingBuf.pushBack (RingBuf.pushBack (RingBuf.withCapacity 1) 4) 5) 3) 6) 2) 1) =
      [1, 2, 3, 4, 5, 6] := by
  decide

namespace RingBuf

/-- **C1** (code bug): the spec says that for a non-wrapped buffer (`span2`
empty) with `lo ≠ 0`, `reset()` performs a single in-place shift that
preserves the logical sequence, and hence that `into_vec()` returns the
logical sequence of every reachable state.  The source's `reset()` is
missing an `else` between its `len2 == 0` branch and the following
`if / else if / else` chain, so on the reachable state
`from_vec(vec![1,2,3,4])` followed by `pop_front()` (giving
`lo = 1, len = 3, cap = 4`) the shift runs twice and the logical sequence
`[2, 3, 4]` comes out of `reset`/`into_vec` as `[3, 4, 4]`. -/
theorem c1_reset_corrupts :
    (popFront (fromVec [1, 2, 3, 4] 4)).2 = ⟨1, 3, 4, [1, 2, 3, 4]⟩ ∧
      toList (popFront (fromVec [1, 2, 3, 4] 4)).2 = [2, 3, 4] ∧
      (reset (popFront (fromVec [1, 2, 3, 4] 4)).2).lo = 0 ∧
      toList (reset (popFront (fromVec [1, 2, 3, 4] 4)).2) = [3, 4, 4] ∧
      intoVec (popFront (fromVec [1, 2, 3, 4] 4)).2 = [3, 4, 4] := by
  decide

/-- **C2** (code bug): the spec says a full `push_back` first grows the
capacity to `max(len, 1) * 2`; the code grows to `len * 2`, so on the
reachable zero-capacity buffer `from_vec(Vec::new())` the `resize(0)` is a
no-op, the element is written outside any allocation, and the capacity
stays 0 instead of becoming `2 * max(0, 1) = 2`. -/
theorem c2_pushBack_zero_capacity :
    ((fromVec [] 0).pushBack 7).cap = 0 ∧ ((fromVec [] 0).pushBack 7).len = 1 ∧
      2 * max (fromVec [] 0).len 1 = 2 := by
  decide

/-- **C3** (code bug): `push_back` on the reachable state
`from_vec(Vec::new())` (`len = cap = 0`) fails to grow and leaves
`len = 1 > cap = 0`, violating the invariant `0 ≤ len ≤ cap` documented on
the struct itself. -/
theorem c3_invariant_broken :
    ((fromVec [] 0).pushBack 7).len = 1 ∧ ((fromVec [] 0).pushBack 7).cap = 0 ∧
      ¬ ((fromVec [] 0).pushBack 7).len ≤ ((fromVec [] 0).pushBack 7).cap := by
  decide

/-- **C4** (counterexample): the code's `lt` is not the lexicographic
order: `[1]` is lexicographically below `[2]`, but `lt` additionally
demands the left length be strictly smaller and returns `false`. -/
theorem c4_lt_not_lex :
    ltRB (fromVec [1] 1) (fromVec [2] 1) = false ∧
      lexCmp (toList (fromVec [1] 1)) (toList (fromVec [2] 1)) = Ordering.lt := by
  decide

/-- **C4** (amended): the three-way comparison `cmp` does agree with
lexicographically comparing the two linearized sequences (first differing
pair decides; on an equal shared prefix the shorter is less); the `lt`
operator does not. -/
theorem c4_cmp_lex (a b : RingBuf) (ha : WF a) (hb : WF b) :
    cmpRB a b = lexCmp (toList a) (toList b) := by
  unfold cmpRB
  rw [← toList_length a ha, ← toList_length b hb]
  exact zipCmp_eq_lexCmp (toList a) (toList b)

/-- Witness for `c4_cmp_lex` at concrete buffers. -/
theorem c4_cmp_lex_witness :
    WF (fromVec [1, 2] 2) ∧ WF (fromVec [1, 3] 3) ∧
      cmpRB (fromVec [1, 2] 2) (fromVec [1, 3] 3) =
        lexCmp (toList (fromVec [1, 2] 2)) (toList (fromVec [1, 3] 3)) :=
  ⟨by decide, by decide, c4_cmp_lex _ _ (by decide) (by decide)⟩

/-- **C5** (counterexample): after `with_capacity(3)` (capacity exactly 3),
`reserve(2)` does not grow and leaves capacity 3, which is ≥ 2 but not a
power of two. -/
theorem c5_reserve_not_pow2 :
    ((withCapacity 3).reserve 2).cap = 3 ∧ (2 : Nat) ≤ 3 ∧
      ¬ ∃ k, (3 : Nat) = 2 ^ k := by
  refine ⟨by decide, by decide, ?_⟩
  rintro ⟨k, hk⟩
  rcases k with _ | _ | k
  · exact absurd hk (by decide)
  · exact absurd hk (by decide)
  · have h4 : 2 ^ 2 ≤ 2 ^ (k + 2) := Nat.pow_le_pow_right (by omega) (by omega)
    norm_num at h4
    omega

/-- **C5** (amended): after `reserve(n)` with `n ≤ 2^63` (the largest power
of two a 64-bit `uint` can hold) the capacity is at least `n`; whenever a
`reserve` call actually changed the capacity the new capacity is a power of
two (when it did not, the old capacity — not necessarily a power of two —
is kept); and for `n > 2^63` the wrapping `next_power_of_two` returns 0, so
`reserve` silently leaves the buffer unchanged and the capacity can stay
below `n`. -/
theorem c5_reserve_amended (r : RingBuf) (n : Nat) :
    (n ≤ 2 ^ 63 → n ≤ (r.reserve n).cap) ∧
      ((r.reserve n).cap ≠ r.cap → ∃ k, (r.reserve n).cap = 2 ^ k) ∧
      (2 ^ 63 < n → r.reserve n = r) := by
  unfold reserve reserveExact
  split
  · rename_i hgt
    have hne : nextPowerOfTwo n ≠ r.cap := by omega
    have hcap : (r.resize (nextPowerOfTwo n)).cap = nextPowerOfTwo n := by
      unfold resize
      rw [if_neg hne]
    refine ⟨fun hn => ?_, fun _ => ?_, fun hwrap => ?_⟩
    · rw [hcap]
      exact nextPowerOfTwo_ge n hn
    · rw [hcap]
      rcases nextPowerOfTwo_pow_or_zero n with h0 | hk
      · exact absurd hgt (by omega)
      · exact hk
    · have hz := nextPowerOfTwo_wrap n hwrap
      exact absurd hgt (by omega)
  · rename_i hle
    refine ⟨fun hn => ?_, fun hne => absurd rfl hne, fun _ => rfl⟩
    have := nextPowerOfTwo_ge n hn
    omega

/-- Witness for `c5_reserve_amended`: a small request that grows to a power
of two, and a request beyond `2^63` on which `reserve` no-ops. -/
theorem c5_reserve_amended_witness :
    (5 ≤ 2 ^ 63 → 5 ≤ ((fromVec [] 0).reserve 5).cap) ∧
      (((fromVec [] 0).reserve 5).cap ≠ (fromVec [] 0).cap →
        ∃ k, ((fromVec [] 0).reserve 5).cap = 2 ^ k) ∧
      (2 ^ 63 < 5 → (fromVec [] 0).reserve 5 = fromVec [] 0) ∧
      (2 ^ 63 < 2 ^ 63 + 1 → (withCapacity 3).reserve (2 ^ 63 + 1) = withCapacity 3) :=
  ⟨(c5_reserve_amended (fromVec [] 0) 5).1, (c5_reserve_amended (fromVec [] 0) 5).2.1,
    (c5_reserve_amended (fromVec [] 0) 5).2.2,
    (c5_reserve_amended (withCapacity 3) (2 ^ 63 + 1)).2.2⟩

/-- **C6**: under `0 ≤ lo < cap` and `index ≤ cap` the offset computation —
`index - (cap - lo)` when `lo ≥ cap - index`, else `lo + index` — equals
`(lo + index) mod cap`, and the subtractions involved do not underflow:
`cap - index` is guarded by `index ≤ cap`, and in the taken branch the
outer subtraction `index - (cap - lo)` is guarded by the branch condition
itself (`cap - lo ≤ index`). -/
theorem c6_getOffset_spec (r : RingBuf) (index : Nat) (h1 : r.lo < r.cap)
    (h2 : index ≤ r.cap) :
    r.getOffset index = (r.lo + index) % r.cap ∧
      (r.cap - index ≤ r.lo → r.cap - r.lo ≤ index) :=
  ⟨getOffset_mod r index h1 h2, fun _ => by omega⟩

/-- Witness for `c6_getOffset_spec` on a wrapped concrete state. -/
theorem c6_getOffset_spec_witness :
    (mk 2 2 3 [1, 2, 3]).lo < (mk 2 2 3 [1, 2, 3]).cap ∧
      2 ≤ (mk 2 2 3 [1, 2, 3]).cap ∧
      ((mk 2 2 3 [1, 2, 3]).getOffset 2 =
          ((mk 2 2 3 [1, 2, 3]).lo + 2) % (mk 2 2 3 [1, 2, 3]).cap ∧
        ((mk 2 2 3 [1, 2, 3]).cap - 2 ≤ (mk 2 2 3 [1, 2, 3]).lo →
          (mk 2 2 3 [1, 2, 3]).cap - (mk 2 2 3 [1, 2, 3]).lo ≤ 2)) :=
  ⟨by decide, by decide, c6_getOffset_spec (mk 2 2 3 [1, 2, 3]) 2 (by decide) (by decide)⟩

/-- **C7**: starting from an empty buffer, pushing the values `1..n` with
`push_front` and reading front to back yields `n..1`, while pushing the
same values with `push_back` yields `1..n` — for every `n`, including
those forcing capacity growth and wraparound. -/
theorem c7_order_law (n : Nat) :
    toList (((List.range n).map fun i => (i : Int) + 1).foldl pushBack new) =
        (List.range n).map (fun i => (i : Int) + 1) ∧
      toList (((List.range n).map fun i => (i : Int) + 1).foldl pushFront new) =
        ((List.range n).map fun i => (i : Int) + 1).reverse := by
  have hw : WF new := by decide
  have hnew : toList new = [] := by decide
  refine ⟨?_, ?_⟩
  · rw [(foldl_pushBack _ new hw).2, hnew, List.nil_append]
  · rw [(foldl_pushFront _ new hw).2, hnew, List.append_nil]

/-- **C8**: on an empty buffer `pop_front`, `pop_back`, `front`, `back`
each return `none` as normal control flow and the state is unchanged; on a
non-empty buffer the pops return `some` of the first resp. last logical
element and decrease `len` by one. -/
theorem c8_pop_spec (r : RingBuf) (h : WF r) :
    (r.len = 0 →
        r.popFront = (none, r) ∧ r.popBack = (none, r) ∧
          r.front = none ∧ r.back = none) ∧
      (0 < r.len →
        r.popFront.1 = (toList r).head? ∧ r.popFront.2.len = r.len - 1 ∧
          r.popBack.1 = (toList r).getLast? ∧ r.popBack.2.len = r.len - 1) := by
  obtain ⟨hlen, hle, hlo⟩ := h
  constructor
  · intro h0
    refine ⟨?_, ?_, ?_, ?_⟩ <;> simp [popFront, popBack, front, back, h0]
  · intro hpos
    have htl := toList_eq r ⟨hlen, hle, hlo⟩
    obtain ⟨m, hm⟩ : ∃ m, r.len = m + 1 := ⟨r.len - 1, by omega⟩
    refine ⟨?_, ?_, ?_, ?_⟩
    · rw [popFront, if_neg (by omega)]
      dsimp only
      rw [htl, hm, List.range_succ_eq_map, List.map_cons, List.head?_cons,
        getOffset_mod r 0 hlo (by omega)]
    · rw [popFront, if_neg (by omega)]
    · rw [popBack, if_neg (by omega)]
      dsimp only
      rw [htl, List.getLast?_eq_getElem?, List.length_map, List.length_range,
        List.getElem?_map, List.getElem?_range (by omega), Option.map_some',
        getOffset_mod r (r.len - 1) hlo (by omega)]
    · rw [popBack, if_neg (by omega)]

/-- Witness for `c8_pop_spec` at a concrete non-empty buffer. -/
theorem c8_pop_spec_witness :
    WF (fromVec [5] 1) ∧
      (((fromVec [5] 1).len = 0 →
          (fromVec [5] 1).popFront = (none, fromVec [5] 1) ∧
            (fromVec [5] 1).popBack = (none, fromVec [5] 1) ∧
            (fromVec [5] 1).front = none ∧ (fromVec [5] 1).back = none) ∧
        (0 < (fromVec [5] 1).len →
          (fromVec [5] 1).popFront.1 = (toList (fromVec [5] 1)).head? ∧
            (fromVec [5] 1).popFront.2.len = (fromVec [5] 1).len - 1 ∧
            (fromVec [5] 1).popBack.1 = (toList (fromVec [5] 1)).getLast? ∧
            (fromVec [5] 1).popBack.2.len = (fromVec [5] 1).len - 1)) :=
  ⟨by decide, c8_pop_spec (fromVec [5] 1) (by decide)⟩

/-- **C9**: `from_vec(v)` adopts the vector verbatim: `lo = 0`,
`len = v.len()`, `cap = v.capacity()` — the minimum-capacity rounding of
`with_capacity` is not applied, so an empty `Vec` of capacity 0 yields a
zero-capacity buffer while `with_capacity(0)` yields capacity 2 — and
`get(i) = v[i]` for every `i < len`. -/
theorem c9_fromVec_spec (l : List Int) (c : Nat) (h : l.length ≤ c) :
    (fromVec l c).lo = 0 ∧ (fromVec l c).len = l.length ∧ (fromVec l c).cap = c ∧
      (fromVec [] 0).cap = 0 ∧ (withCapacity 0).cap = MINIMUM_CAPACITY ∧
      ∀ i < l.length, (fromVec l c).get i = l.getD i 0 := by
  refine ⟨rfl, rfl, rfl, by decide, by decide, fun i hi => ?_⟩
  unfold get getOffset fromVec
  dsimp only
  rw [if_neg (by omega), Nat.zero_add]
  exact List.getD_append _ _ _ _ hi

/-- Witness for `c9_fromVec_spec` at a concrete vector with spare
capacity. -/
theorem c9_fromVec_spec_witness :
    ([1, 2] : List Int).length ≤ 3 ∧
      ((fromVec [1, 2] 3).lo = 0 ∧
        (fromVec [1, 2] 3).len = ([1, 2] : List Int).length ∧
        (fromVec [1, 2] 3).cap = 3 ∧ (fromVec [] 0).cap = 0 ∧
        (withCapacity 0).cap = MINIMUM_CAPACITY ∧
        ∀ i < ([1, 2] : List Int).length,
          (fromVec [1, 2] 3).get i = ([1, 2] : List Int).getD i 0) :=
  ⟨by decide, c9_fromVec_spec [1, 2] 3 (by decide)⟩

end RingBuf

/-- **C10**: for nonzero-size element types `with_capacity(c)` returns an
empty buffer (`len = 0`, `lo = 0`) of capacity exactly `max(c, 2)` and
`new()` one of capacity exactly 8, both with a block allocated; for
zero-size element types both report capacity `uint::MAX` and allocate no
block. -/
theorem c10_construction_spec (sz c : Nat) :
    (sz ≠ 0 →
        withCapacityRaw sz c = ⟨0, 0, max c MINIMUM_CAPACITY, true⟩ ∧
          newRaw sz = ⟨0, 0, INITIAL_CAPACITY, true⟩) ∧
      (sz = 0 →
        withCapacityRaw sz c = ⟨0, 0, uintMax, false⟩ ∧
          newRaw sz = ⟨0, 0, uintMax, false⟩) := by
  constructor
  · intro hsz
    constructor
    · unfold withCapacityRaw
      rw [if_neg hsz]
      split
      · rename_i hc
        have hmax : max c MINIMUM_CAPACITY = MINIMUM_CAPACITY := by
          simp only [MINIMUM_CAPACITY] at hc ⊢
          omega
        rw [hmax]
      · rename_i hc
        have hmax : max c MINIMUM_CAPACITY = c := by
          simp only [MINIMUM_CAPACITY] at hc ⊢
          omega
        rw [hmax]
    · unfold newRaw withCapacityRaw
      rw [if_neg hsz, if_neg (by decide)]
  · intro hsz
    subst hsz
    exact ⟨rfl, rfl⟩

/-- Witness for `c10_construction_spec` at element size 1, capacity
request 0. -/
theorem c10_construction_spec_witness :
    ((1 ≠ 0 →
        withCapacityRaw 1 0 = ⟨0, 0, max 0 MINIMUM_CAPACITY, true⟩ ∧
          newRaw 1 = ⟨0, 0, INITIAL_CAPACITY, true⟩) ∧
      (1 = 0 →
        withCapacityRaw 1 0 = ⟨0, 0, uintMax, false⟩ ∧
          newRaw 1 = ⟨0, 0, uintMax, false⟩)) :=
  c10_construction_spec 1 0
